import Mathlib

/-!
Verification of the protocol-adapter core of the kiira2api repository.

The Python sources are shallowly embedded: text is `List Char`, floats are
exact rationals (`ℚ`), JSON payloads are typed structures mirroring exactly
the dynamic checks the code performs, and the async event streams are lists
of line values consumed by pure recursive functions.  Each section names the
source file and function it embeds.
-/

namespace Kiira

/-- Characters of a string literal, the text representation used throughout. -/
def cs (s : String) : List Char := s.data

/-- ASCII lowercasing, the effect of Python `str.lower` on the inputs considered. -/
def lowerChar (c : Char) : Char :=
  if 'A' ≤ c ∧ c ≤ 'Z' then Char.ofNat (c.toNat + 32) else c

/-- Lowercase every character. -/
def lowerL (l : List Char) : List Char := l.map lowerChar

/-- Python whitespace test used by `str.strip`. -/
def isWs (c : Char) : Bool :=
  c = ' ' || c = '\t' || c = '\n' || c = '\r' || c.toNat = 11 || c.toNat = 12

/-- Python `str.strip`: drop whitespace from both ends. -/
def pstrip (l : List Char) : List Char :=
  ((l.dropWhile isWs).reverse.dropWhile isWs).reverse

/-!
Embedding of `app/utils/conversation.py`.

The regex `(?P<before>.*?)\[CONVERSATION_ID:(?P<cid>[^\]]+)\](?P<after>.*)`
with IGNORECASE and DOTALL, applied by `re.search`, matches at the first
position where the case-insensitive opener `[CONVERSATION_ID:` is followed by
at least one character other than `]` and then by `]`; `before` is everything
to the left, `cid` the run of non-`]` characters, `after` the rest.
-/

/-- The tag opener, lowercase reference form (17 characters). -/
def openerL : List Char := '[' :: cs "conversation_id:"

/-- The tag opener as the code injects it. -/
def openerU : List Char := cs "[CONVERSATION_ID:"

/-- Does a case-insensitive occurrence of the opener start here? -/
def openerAt (l : List Char) : Bool :=
  decide (lowerL (l.take 17) = openerL)

/-- Try to match the whole tag at this position: the opener, then a non-empty
run of non-`]` characters, then `]`.  Returns `(cid, after)`. -/
def tagAt (l : List Char) : Option (List Char × List Char) :=
  if openerAt l then
    let rest := l.drop 17
    let cid := rest.takeWhile (fun c => decide (c ≠ ']'))
    if cid = [] then none
    else
      match rest.drop cid.length with
      | ']' :: after => some (cid, after)
      | _ => none
  else none

/-- Leftmost tag match of the regex: `(before, cid, after)`. -/
def findTag : List Char → Option (List Char × List Char × List Char)
  | [] => none
  | c :: rest =>
    match tagAt (c :: rest) with
    | some (cid, after) => some ([], cid, after)
    | none =>
      match findTag rest with
      | some (b, cid, a) => some (c :: b, cid, a)
      | none => none

/-- Embedding of `_extract_from_text`: the first tag's id (stripped of
whitespace, rejected when that leaves nothing) and the text with that one tag
removed. -/
def extractFromText (t : List Char) : Option (List Char) × List Char :=
  match findTag t with
  | none => (none, t)
  | some (b, cid, a) =>
    let c := pstrip cid
    if c = [] then (none, t) else (some c, b ++ a)

/-- One part of a multi-part (OpenAI style) message: a dict with a string
`text` field, or any other part, which the code passes through. -/
inductive Part : Type
  | pText (t : List Char)
  | pOther
deriving DecidableEq

/-- Message content: plain text or a list of typed parts. -/
inductive Content : Type
  | str (s : List Char)
  | parts (l : List Part)
deriving DecidableEq

/-- A chat message. -/
structure Message : Type where
  role : List Char
  content : Content
deriving DecidableEq

/-- The id `_extract_from_text` reports for one part. -/
def partCid : Part → Option (List Char)
  | Part.pText t => (extractFromText t).1
  | Part.pOther => none

/-- A part with its first tag removed. -/
def partClean : Part → Part
  | Part.pText t => Part.pText (extractFromText t).2
  | Part.pOther => Part.pOther

/-- Inner loop of `extract_conversation_id_from_messages` over the parts of a
multi-part message: `conv` is the id captured before this message, `cf` the
`cid_found` accumulator, `acc` the `new_parts` accumulator. -/
def partsGo (conv : Option (List Char)) (cf : Option (List Char))
    (acc : List Part) : List Part → Option (List Char) × List Part
  | [] => (cf, acc)
  | p :: rest =>
    match p with
    | Part.pText t =>
      match (extractFromText t).1 with
      | some c =>
        partsGo conv (if conv = none then some c else cf)
          (acc ++ [Part.pText (extractFromText t).2]) rest
      | none => partsGo conv cf (acc ++ [p]) rest
    | Part.pOther => partsGo conv cf (acc ++ [p]) rest

/-- Processing of one message: returns the updated captured id and the
cleaned message. -/
def processOne (conv : Option (List Char)) (m : Message) :
    Option (List Char) × Message :=
  match m.content with
  | Content.str s =>
    let r := extractFromText s
    ((match conv, r.1 with
      | none, some c => some c
      | _, _ => conv),
     (match r.1 with
      | some _ => { m with content := Content.str r.2 }
      | none => m))
  | Content.parts l =>
    let r := partsGo conv none [] l
    ((match r.1, conv with
      | some c, none => some c
      | _, _ => conv),
     { m with content := Content.parts r.2 })

/-- Outer loop of `extract_conversation_id_from_messages`. -/
def ecGo (conv : Option (List Char)) (acc : List Message) :
    List Message → Option (List Char) × List Message
  | [] => (conv, acc)
  | m :: rest =>
    let r := processOne conv m
    ecGo r.1 (acc ++ [r.2]) rest

/-- Embedding of `extract_conversation_id_from_messages`. -/
def extract_conversation_id_from_messages (msgs : List Message) :
    Option (List Char) × List Message :=
  ecGo none [] msgs

/-- The tag text `inject_conversation_id_into_response` appends. -/
def tagOf (cid : List Char) : List Char :=
  cs "\n\n" ++ openerU ++ cid ++ [']']

/-- Embedding of `inject_conversation_id_into_response` on a plain-text
content: append the tag, no-op for a falsy id. -/
def injectText (t cid : List Char) : List Char :=
  if cid = [] then t else t ++ tagOf cid

/-- The id a whole message yields: for plain text the first tag, for
multi-part content the last tag-bearing part (each later part overwrites
`cid_found`). -/
def lastSomeP : List Part → Option (List Char)
  | [] => none
  | p :: rest =>
    match lastSomeP rest with
    | some c => some c
    | none => partCid p

/-- The candidate id of one message. -/
def msgCandidate (m : Message) : Option (List Char) :=
  match m.content with
  | Content.str s => (extractFromText s).1
  | Content.parts l => lastSomeP l

/-- A message with, in each of its text strings, only the first tag removed. -/
def msgClean (m : Message) : Message :=
  match m.content with
  | Content.str s => { m with content := Content.str (extractFromText s).2 }
  | Content.parts l => { m with content := Content.parts (l.map partClean) }

/-- True when there is no position of `t` where the case-insensitive opener
`[CONVERSATION_ID:` starts. -/
def openerFree : List Char → Bool
  | [] => true
  | c :: rest => !openerAt (c :: rest) && openerFree rest

/-- Python truthiness of the optional `conversation_id` request field. -/
def cidTruthy : Option (List Char) → Bool
  | none => false
  | some s => decide (s ≠ [])

/-- Embedding of the message-cleaning slice of `chat_completions`
(`app/api/v1/chat.py`): extraction runs only when no explicit, truthy
`conversation_id` was supplied and the message list is non-empty; the
messages forwarded upstream are the cleaned ones in that case and the
originals otherwise. -/
def forwardedMessages (explicitCid : Option (List Char)) (msgs : List Message) :
    List Message :=
  if cidTruthy explicitCid = false ∧ msgs ≠ [] then
    (extract_conversation_id_from_messages msgs).2
  else msgs

/-!
Embedding of the agent-name matcher of `app/services/kiira_client.py`.

`difflib.SequenceMatcher` without junk reduces to: repeatedly take the
longest common contiguous block (ties: smallest start in `a`, then in `b`),
recurse on both sides, and sum the block lengths; `ratio` is twice that sum
over the total length.  Floats are modelled by exact rationals.
-/

/-- Length of the longest common prefix. -/
def lcp : List Char → List Char → Nat
  | x :: xs, y :: ys => if x = y then lcp xs ys + 1 else 0
  | _, _ => 0

/-- The longest matching block `(i, j, k)` of two lists: maximal `k`, ties
resolved to the smallest `i` and then the smallest `j`, matching
`SequenceMatcher.find_longest_match` with no junk. -/
def findBest (a b : List Char) : Nat × Nat × Nat :=
  (List.range a.length).foldl
    (fun best i =>
      (List.range b.length).foldl
        (fun best j =>
          let k := lcp (a.drop i) (b.drop j)
          if k > best.2.2 then (i, j, k) else best)
        best)
    (0, 0, 0)

/-- Total matched characters, fuelled recursion on the block decomposition.
The fuel `a.length + b.length + 1` strictly bounds the recursion depth. -/
def matchTotalF : Nat → List Char → List Char → Nat
  | 0, _, _ => 0
  | fuel + 1, a, b =>
    let r := findBest a b
    if r.2.2 = 0 then 0
    else
      matchTotalF fuel (a.take r.1) (b.take r.2.1) + r.2.2 +
        matchTotalF fuel (a.drop (r.1 + r.2.2)) (b.drop (r.2.1 + r.2.2))

/-- Sum of the lengths of all matching blocks. -/
def matchTotal (a b : List Char) : Nat :=
  matchTotalF (a.length + b.length + 1) a b

/-- `SequenceMatcher.ratio` as an exact rational: twice the matched total
over the combined length. -/
def ratioQ (a b : List Char) : ℚ :=
  if a.length + b.length = 0 then 1
  else mkRat (2 * (matchTotal a b : Int)) (a.length + b.length)

/-- Is `sub` a contiguous substring (Python `in`)? -/
def substrB (sub big : List Char) : Bool :=
  match big with
  | [] => decide (sub = [])
  | _ :: rest => decide (sub = big.take sub.length) || substrB sub rest

/-- A character kept by `normalize_agent_name`: ASCII digit, ASCII lowercase
letter, or CJK ideograph. -/
def allowedChar (c : Char) : Bool :=
  ('0' ≤ c && c ≤ '9') || ('a' ≤ c && c ≤ 'z') ||
    (0x4e00 ≤ c.toNat && c.toNat ≤ 0x9fff)

/-- Embedding of `normalize_agent_name`: strip, lowercase, keep only digits,
lowercase letters and CJK ideographs. -/
def normalize_agent_name (name : List Char) : List Char :=
  ((pstrip name).map lowerChar).filter allowedChar

/-- Embedding of `get_agent_name_similarity`. -/
def get_agent_name_similarity (a b : List Char) : ℚ :=
  let na := normalize_agent_name a
  let nb := normalize_agent_name b
  if na = [] ∨ nb = [] then 0
  else if na = nb then 1
  else
    let base := ratioQ na nb
    if substrB na nb || substrB nb na then max base (mkRat 9 10) else base

/-- Embedding of `is_agent_name_match` with an explicit threshold (the
module default is `0.7`). -/
def is_agent_name_match (a b : List Char) (threshold : ℚ) : Bool :=
  if a = [] ∨ b = [] then false
  else if a = b then true
  else if lowerL a = lowerL b then true
  else decide (get_agent_name_similarity a b ≥ threshold)

/-- The similarity threshold constant `AGENT_NAME_SIMILARITY_THRESHOLD`. -/
def thresholdQ : ℚ := mkRat 7 10

/-!
Embedding of `KiiraAIClient.get_my_chat_group_list`, the three-tier agent
resolver.  The upstream responses (group list, agent catalog, group
creation) are parameters; optional JSON fields are `Option` values.
-/

/-- One member of a chat group. -/
structure GUser : Type where
  nickname : Option (List Char)
  account_no : Option (List Char)
deriving DecidableEq

/-- One existing chat group. -/
structure GroupItem : Type where
  id : Option (List Char)
  user_list : List GUser
deriving DecidableEq

/-- One entry of the global agent catalog. -/
structure AgentEntry : Type where
  id : Option (List Char)
  label : Option (List Char)
  account_no : Option (List Char)
  description : Option (List Char)
deriving DecidableEq

/-- The payload of a successful group-creation response. -/
structure GroupInfo : Type where
  id : Option (List Char)
  user_list : List GUser
deriving DecidableEq

/-- Tier 1: the first group member whose nickname equals the desired name
byte for byte, with its group id and account number. -/
def exactMatch (items : List GroupItem) (name : List Char) :
    Option (Option (List Char) × Option (List Char)) :=
  items.findSome? (fun it =>
    it.user_list.findSome? (fun u =>
      if u.nickname = some name then some (it.id, u.account_no) else none))

/-- Tier 2 scan: the best similarity score over all members of all groups,
the first strictly greater score winning, empty nicknames skipped. -/
def bestGroupMatch (items : List GroupItem) (name : List Char) :
    ℚ × Option (GroupItem × GUser) :=
  items.foldl
    (fun acc it =>
      it.user_list.foldl
        (fun acc u =>
          match u.nickname with
          | none => acc
          | some nk =>
            if nk = [] then acc
            else
              let s := get_agent_name_similarity name nk
              if s > acc.1 then (s, some (it, u)) else acc)
        acc)
    (0, none)

/-- Tier 3 scan: the best similarity score over the catalog labels. -/
def bestAgentMatch (al : List AgentEntry) (name : List Char) :
    ℚ × Option AgentEntry :=
  al.foldl
    (fun acc ag =>
      match ag.label with
      | none => acc
      | some lb =>
        if lb = [] then acc
        else
          let s := get_agent_name_similarity name lb
          if s > acc.1 then (s, some ag) else acc)
    (0, none)

/-- Tier 3: look the name up in the catalog and create a group for the best
entry above the threshold; the returned account number comes from the
creation response's first member when that is present and truthy, otherwise
from the catalog entry itself. -/
def resolveTier3 (agentList : Option (List AgentEntry))
    (create : List (List Char) → Option GroupInfo) (name : List Char) :
    Option (Option (List Char) × Option (List Char)) :=
  match agentList with
  | none => none
  | some al =>
    match bestAgentMatch al name with
    | (sc, some ag) =>
      if sc ≥ thresholdQ then
        match ag.account_no with
        | some anb =>
          if anb = [] then none
          else
            match create [anb] with
            | some info =>
              let at_no :=
                match info.user_list with
                | [] => anb
                | u :: _ =>
                  match u.account_no with
                  | some m => if m = [] then anb else m
                  | none => anb
              some (info.id, some at_no)
            | none => none
        | none => none
      else none
    | (_, none) => none

/-- Embedding of `get_my_chat_group_list`: exact nickname match, then fuzzy
match over existing groups, then fuzzy match plus creation over the catalog. -/
def get_my_chat_group_list (items : List GroupItem)
    (agentList : Option (List AgentEntry))
    (create : List (List Char) → Option GroupInfo) (name : List Char) :
    Option (Option (List Char) × Option (List Char)) :=
  match exactMatch items name with
  | some r => some r
  | none =>
    match bestGroupMatch items name with
    | (sc, some (it, u)) =>
      if sc ≥ thresholdQ then some (it.id, u.account_no)
      else resolveTier3 agentList create name
    | (_, none) => resolveTier3 agentList create name

/-!
Embedding of `InMemoryConversationStore` (`app/services/conversation_store.py`).
Timestamps are integers, the table is an association list in insertion
order with the uniqueness of dict keys stated as a `Nodup` hypothesis where
it matters.
-/

/-- A stored conversation session. -/
structure Session : Type where
  conversation_id : List Char
  group_id : List Char
  token : List Char
  agent_name : List Char
  created_at : Int
  last_active_at : Int
deriving DecidableEq

/-- The store's table. -/
abbrev SessionMap : Type := List (List Char × Session)

/-- Dict lookup. -/
def findSession : SessionMap → List Char → Option Session
  | [], _ => none
  | (k, s) :: rest, cid => if k = cid then some s else findSession rest cid

/-- Dict deletion of one key (the first occurrence; keys are unique). -/
def eraseSession : SessionMap → List Char → SessionMap
  | [], _ => []
  | (k, s) :: rest, cid =>
    if k = cid then rest else (k, s) :: eraseSession rest cid

/-- Embedding of `InMemoryConversationStore.get`: absent gives `none`;
an entry whose age strictly exceeds the time-to-live is deleted and `none`
is returned; otherwise the session is returned and the table untouched. -/
def storeGet (now ttl : Int) (st : SessionMap) (cid : List Char) :
    Option Session × SessionMap :=
  match findSession st cid with
  | none => (none, st)
  | some s =>
    if now - s.last_active_at > ttl then (none, eraseSession st cid)
    else (some s, st)

/-- Is this entry expired at time `now`? -/
def staleAt (now ttl : Int) (p : List Char × Session) : Bool :=
  decide (now - p.2.last_active_at > ttl)

/-- Embedding of `InMemoryConversationStore.cleanup_expired`: collect the
expired ids, delete each, return how many. -/
def cleanup_expired (now ttl : Int) (st : SessionMap) : Nat × SessionMap :=
  let expired := (st.filter (staleAt now ttl)).map Prod.fst
  (expired.length, expired.foldl (fun m k => eraseSession m k) st)

/-!
Embedding of the stream translation: `extract_media_from_data`
(`app/utils/stream_parser.py`), the streaming generator `generate_stream`
(`app/api/v1/chat.py`) and the aggregator `_collect_stream_response`
(`app/services/chat_service.py`).  An upstream line is classified by the
branch the code takes on it; the JSON decode itself is abstracted, a decoded
event being a typed structure with exactly the fields the code inspects.
-/

/-- One entry of a `sa_resources` list. -/
structure URes : Type where
  url : Option (List Char)
  type : Option (List Char)
deriving DecidableEq

/-- The `delta` sub-object of a choice. -/
structure UDelta : Type where
  content : Option (List Char)
  sa_resources : Option (List URes)
deriving DecidableEq

/-- The `message` sub-object of a choice. -/
structure UMsg : Type where
  content : Option (List Char)
deriving DecidableEq

/-- One choice of a decoded upstream event. -/
structure UChoice : Type where
  sa_resources : Option (List URes)
  delta : Option UDelta
  message : Option UMsg
deriving DecidableEq

/-- A decoded upstream event. -/
structure UEvent : Type where
  choices : List UChoice
deriving DecidableEq

/-- An upstream stream line, classified by the branch taken on it: blank,
a non-`data:` line, a `data: [DONE]` marker, a data line whose payload
strips to nothing, an undecodable data line, or a decoded data line. -/
inductive ULine : Type
  | blank
  | otherLine
  | doneLine
  | dataEmpty
  | dataMalformed
  | dataEvent (e : UEvent)
deriving DecidableEq

/-- A media hit in one resource entry: a truthy url and a type whose
lowercase form is `image` or `video`. -/
def resMedia (r : URes) : Option (List Char × List Char) :=
  match r.url with
  | none => none
  | some u =>
    if u = [] then none
    else
      match r.type with
      | none => none
      | some t =>
        let nt := lowerL t
        if nt = cs "image" ∨ nt = cs "video" then some (u, nt) else none

/-- The resource lists of one choice in scan order: choice level first, then
delta level. -/
def choiceResources (c : UChoice) : List URes :=
  (c.sa_resources.getD []) ++ ((c.delta.bind UDelta.sa_resources).getD [])

/-- Embedding of `extract_media_from_data`: the first qualifying resource
across all choices, at most one media item per event. -/
def extractMedia (e : UEvent) : Option (List Char × List Char) :=
  e.choices.findSome? (fun c => (choiceResources c).findSome? resMedia)

/-- The text delta of an event: first choice only, `delta.content` when
truthy, else `message.content`. -/
def eventContent (e : UEvent) : List Char :=
  match e.choices with
  | [] => []
  | c :: _ =>
    let dc := (c.delta.bind UDelta.content).getD []
    if dc = [] then (c.message.bind UMsg.content).getD [] else dc

/-- The resource lists the aggregator collects verbatim from the FIRST
choice when a media item was seen in the event. -/
def choice0Resources (e : UEvent) : List URes :=
  match e.choices with
  | [] => []
  | c :: _ => choiceResources c

/-- One outward item of the streaming response: a chunk (with its optional
`conversation_id` field, the optional `delta.content`, the finish reason) or
the `data: [DONE]` end marker. -/
inductive OutItem : Type
  | chunk (convField : Option (Option (List Char)))
      (deltaContent : Option (List Char)) (finishReason : Option (List Char))
  | done
deriving DecidableEq

/-- Python `rstrip`. -/
def rstripL (l : List Char) : List Char :=
  (l.reverse.dropWhile isWs).reverse

/-- The closing chunk's content on a `data: [DONE]` line of
`generate_stream`: the rendered media reference, then the continuity tag. -/
def finalSuffix (convId : Option (List Char))
    (media : Option (List Char × List Char)) : List Char :=
  let s1 : List Char :=
    match media with
    | none => []
    | some (u, t) =>
      if t = cs "image" then cs "\n\n![Generated Image](" ++ u ++ cs ")\n\n"
      else if t = cs "video" then cs "生成视频完成.\n[点击下载视频](" ++ u ++ cs ")"
      else cs "\n\n" ++ u ++ cs "\n\n"
  match convId with
  | some c =>
    if c = [] then s1
    else (if s1 = [] then [] else rstripL s1) ++ tagOf c
  | none => s1

/-- The loop body of `generate_stream`: media state is threaded through,
each truthy text delta becomes one content chunk, the first `[DONE]`
upstream line yields the closing chunk and the end marker and stops
consumption, and an exhausted upstream yields a synthesized closing chunk
with an empty delta and the end marker. -/
def goStream (convId : Option (List Char)) :
    List ULine → Option (List Char × List Char) → List OutItem
  | [], _ => [OutItem.chunk none none (some (cs "stop")), OutItem.done]
  | ULine.doneLine :: _, media =>
    let suf := finalSuffix convId media
    [OutItem.chunk none (if suf = [] then none else some suf) (some (cs "stop")),
     OutItem.done]
  | ULine.dataEvent e :: rest, media =>
    let media' :=
      match extractMedia e with
      | some m => some m
      | none => media
    let c := eventContent e
    (if c = [] then [] else [OutItem.chunk none (some c) none]) ++
      goStream convId rest media'
  | ULine.blank :: rest, media => goStream convId rest media
  | ULine.otherLine :: rest, media => goStream convId rest media
  | ULine.dataEmpty :: rest, media => goStream convId rest media
  | ULine.dataMalformed :: rest, media => goStream convId rest media

/-- Embedding of `generate_stream`: the meta chunk carrying the
conversation id, then the translated upstream lines. -/
def generate_stream (convId : Option (List Char)) (lines : List ULine) :
    List OutItem :=
  OutItem.chunk (some convId) none none :: goStream convId lines none

/-- Is this line the terminal `data: [DONE]` marker? -/
def isDoneLine : ULine → Bool
  | ULine.doneLine => true
  | _ => false

/-- Does the upstream line sequence carry a terminal `data: [DONE]` marker? -/
def hasDoneLine (lines : List ULine) : Bool :=
  lines.any isDoneLine

/-- Is this outward item a chunk with finish reason `stop`? -/
def isStopChunk : OutItem → Bool
  | OutItem.chunk _ _ (some f) => decide (f = cs "stop")
  | _ => false

/-- Is this outward item the end marker? -/
def isDoneMark : OutItem → Bool
  | OutItem.done => true
  | _ => false

/-- The aggregator's accumulator: `full_content`, the last media item, the
collected `sa_resources`. -/
structure CState : Type where
  text : List Char
  media : Option (List Char × List Char)
  res : List URes
deriving DecidableEq

/-- One decoded event of `_collect_stream_response`: media and resource
tracking, then text accumulation. -/
def collectStep (acc : CState) (e : UEvent) : CState :=
  let acc1 :=
    match extractMedia e with
    | some md => { acc with media := some md, res := acc.res ++ choice0Resources e }
    | none => acc
  let c := eventContent e
  if c = [] then acc1 else { acc1 with text := acc1.text ++ c }

/-- The line loop of `_collect_stream_response`: non-data lines are skipped,
an empty payload or `[DONE]` stops the loop, undecodable lines are skipped. -/
def collectLoop : List ULine → CState → CState
  | [], acc => acc
  | ULine.doneLine :: _, acc => acc
  | ULine.dataEmpty :: _, acc => acc
  | ULine.dataEvent e :: rest, acc => collectLoop rest (collectStep acc e)
  | ULine.blank :: rest, acc => collectLoop rest acc
  | ULine.otherLine :: rest, acc => collectLoop rest acc
  | ULine.dataMalformed :: rest, acc => collectLoop rest acc

/-- The media Markdown `_collect_stream_response` appends to the text. -/
def collectSuffix (media : Option (List Char × List Char)) : List Char :=
  match media with
  | none => []
  | some (u, t) =>
    if t = cs "image" then cs "\n\n![Generated Image](" ++ u ++ cs ")\n\n"
    else if t = cs "video" then
      cs "\n\n生成视频完成.\n[点击下载视频](" ++ u ++ cs ")\n\n"
    else cs "\n\n" ++ u ++ cs "\n\n"

/-- The parts of the aggregated response the claims inspect. -/
structure RespModel : Type where
  content : List Char
  sa_resources : List URes
deriving DecidableEq

/-- Embedding of `_collect_stream_response`: an empty aggregate (no text,
no resources, no media) is an error, anything else a response whose content
is the accumulated text followed by the rendered last media item. -/
def collect_stream_response (lines : List ULine) :
    Except (List Char) RespModel :=
  let st := collectLoop lines ⟨[], none, []⟩
  if st.text = [] ∧ st.res = [] ∧ st.media = none then
    Except.error (cs "流式响应为空或解析失败")
  else Except.ok ⟨st.text ++ collectSuffix st.media, st.res⟩

/-- Did the aggregation fail? -/
def isErr : Except (List Char) RespModel → Bool
  | Except.error _ => true
  | Except.ok _ => false

/-- The decoded events the aggregator processes: the lines before the first
terminator, skipping non-data and undecodable lines. -/
def processedEvents : List ULine → List UEvent
  | [] => []
  | ULine.doneLine :: _ => []
  | ULine.dataEmpty :: _ => []
  | ULine.dataEvent e :: rest => e :: processedEvents rest
  | ULine.blank :: rest => processedEvents rest
  | ULine.otherLine :: rest => processedEvents rest
  | ULine.dataMalformed :: rest => processedEvents rest

/-- Concatenation of every processed event's text delta. -/
def allText : List UEvent → List Char
  | [] => []
  | e :: rest => eventContent e ++ allText rest

/-- The last media item the processed events yield. -/
def lastMedia : List UEvent → Option (List Char × List Char)
  | [] => none
  | e :: rest =>
    match lastMedia rest with
    | some m => some m
    | none => extractMedia e

/-- The resource lists collected across the processed events. -/
def allRes : List UEvent → List URes
  | [] => []
  | e :: rest =>
    (if (extractMedia e).isSome then choice0Resources e else []) ++ allRes rest

/-!
Lemmas about the tag codec.
-/

/-- When no id was extracted the text comes back unchanged. -/
lemma extractFromText_none (s : List Char)
    (h : (extractFromText s).1 = none) : (extractFromText s).2 = s := by
  unfold extractFromText at *
  cases hf : findTag s with
  | none => simp [hf]
  | some r =>
    obtain ⟨b, cid, a⟩ := r
    by_cases hc : pstrip cid = []
    · simp [hf, hc]
    · simp [hf, hc] at h

/-- A cleaned text part equals `partClean` of the part. -/
lemma partsGo_some (l : List Part) : ∀ (d : List Char)
    (cf : Option (List Char)) (acc : List Part),
    partsGo (some d) cf acc l = (cf, acc ++ l.map partClean) := by
  induction l with
  | nil => intro d cf acc; simp [partsGo]
  | cons p rest ih =>
    intro d cf acc
    cases p with
    | pText t =>
      cases hc : (extractFromText t).1 with
      | some c =>
        simp [partsGo, hc, ih, partClean]
      | none =>
        have ht := extractFromText_none t hc
        simp [partsGo, hc, ih, partClean, ht]
    | pOther => simp [partsGo, ih, partClean]

/-- The parts loop with no id captured yet: the last tag-bearing part wins
and every part is cleaned. -/
lemma partsGo_none (l : List Part) : ∀ (cf : Option (List Char))
    (acc : List Part),
    partsGo none cf acc l =
      ((match lastSomeP l with
        | some c => some c
        | none => cf), acc ++ l.map partClean) := by
  induction l with
  | nil => intro cf acc; simp [partsGo, lastSomeP]
  | cons p rest ih =>
    intro cf acc
    cases p with
    | pText t =>
      cases hc : (extractFromText t).1 with
      | some c =>
        simp only [partsGo, hc, if_pos rfl, ih]
        cases hl : lastSomeP rest with
        | some d => simp [lastSomeP, hl, partCid, hc, partClean]
        | none => simp [lastSomeP, hl, partCid, hc, partClean]
      | none =>
        have ht := extractFromText_none t hc
        simp only [partsGo, hc, ih]
        cases hl : lastSomeP rest with
        | some d => simp [lastSomeP, hl, partCid, hc, partClean, ht]
        | none => simp [lastSomeP, hl, partCid, hc, partClean, ht]
    | pOther =>
      simp only [partsGo, ih]
      cases hl : lastSomeP rest with
      | some d => simp [lastSomeP, hl, partCid, partClean]
      | none => simp [lastSomeP, hl, partCid, partClean]

/-- Processing a message when an id is already captured: the id is kept and
the message cleaned. -/
lemma processOne_some (d : List Char) (m : Message) :
    processOne (some d) m = (some d, msgClean m) := by
  obtain ⟨role, content⟩ := m
  cases content with
  | str s =>
    cases hc : (extractFromText s).1 with
    | some c => simp [processOne, hc, msgClean]
    | none =>
      have ht := extractFromText_none s hc
      simp [processOne, hc, msgClean, ht]
  | parts l => simp [processOne, partsGo_some, msgClean]

/-- Processing a message with no id captured yet: its candidate is captured
and the message cleaned. -/
lemma processOne_none (m : Message) :
    processOne none m = (msgCandidate m, msgClean m) := by
  obtain ⟨role, content⟩ := m
  cases content with
  | str s =>
    cases hc : (extractFromText s).1 with
    | some c => simp [processOne, hc, msgClean, msgCandidate]
    | none =>
      have ht := extractFromText_none s hc
      simp [processOne, hc, msgClean, msgCandidate, ht]
  | parts l =>
    simp only [processOne, partsGo_none, msgClean, msgCandidate]
    cases hl : lastSomeP l with
    | some c => simp
    | none => simp

/-- The outer loop once an id is captured. -/
lemma ecGo_some (msgs : List Message) : ∀ (c : List Char)
    (acc : List Message),
    ecGo (some c) acc msgs = (some c, acc ++ msgs.map msgClean) := by
  induction msgs with
  | nil => intro c acc; simp [ecGo]
  | cons m rest ih =>
    intro c acc
    simp [ecGo, processOne_some, ih]

/-- The outer loop before any capture: the first message candidate wins and
every message is cleaned. -/
lemma ecGo_none (msgs : List Message) : ∀ (acc : List Message),
    ecGo none acc msgs =
      (List.findSome? msgCandidate msgs, acc ++ msgs.map msgClean) := by
  induction msgs with
  | nil => intro acc; simp [ecGo]
  | cons m rest ih =>
    intro acc
    cases hc : msgCandidate m with
    | some c =>
      simp [ecGo, processOne_none, hc, ecGo_some, List.findSome?_cons]
    | none =>
      simp [ecGo, processOne_none, hc, ih, List.findSome?_cons]

/-- The newline is not a character of the lowercase opener. -/
lemma nl_not_mem_openerL : '\n' ∉ openerL := by decide

/-- Lowercasing leaves the newline alone. -/
lemma lowerChar_nl : lowerChar '\n' = '\n' := by decide

/-- No opener starts at a newline. -/
lemma openerAt_head_nl (l : List Char) : openerAt ('\n' :: l) = false := by
  unfold openerAt
  rw [decide_eq_false_iff_not]
  intro h
  have h17 : (('\n' :: l).take 17) = '\n' :: l.take 16 := by
    simp [List.take_succ_cons]
  rw [h17] at h
  simp only [lowerL, List.map_cons, lowerChar_nl, openerL] at h
  exact absurd (List.cons.injEq .. ▸ h).1 (by decide)

/-- Appending text that starts with a newline to opener-free text cannot
create an opener occurrence at a position of that text: an occurrence lying
inside it would already be there, and one straddling the boundary would have
to contain the newline. -/
lemma openerAt_append_nl_false (l s : List Char) (h : openerAt l = false) :
    openerAt (l ++ '\n' :: s) = false := by
  rw [openerAt, decide_eq_false_iff_not] at h ⊢
  intro hcontra
  by_cases hlen : 17 ≤ l.length
  · apply h
    rw [List.take_append_eq_append_take, Nat.sub_eq_zero_of_le hlen] at hcontra
    simpa using hcontra
  · push_neg at hlen
    have hmem : '\n' ∈ (l ++ '\n' :: s).take 17 := by
      rw [List.take_append_eq_append_take]
      apply List.mem_append_right
      obtain ⟨n, hn⟩ : ∃ n, 17 - l.length = n + 1 := ⟨16 - l.length, by omega⟩
      rw [hn, List.take_succ_cons]
      exact List.mem_cons_self _ _
    have hmem2 : '\n' ∈ lowerL ((l ++ '\n' :: s).take 17) := by
      rw [← lowerChar_nl]
      exact List.mem_map_of_mem _ hmem
    rw [hcontra] at hmem2
    exact nl_not_mem_openerL hmem2

/-- No tag can match where no opener matches. -/
lemma tagAt_none_of_openerAt_false (l : List Char) (h : openerAt l = false) :
    tagAt l = none := by
  simp [tagAt, h]

/-- `takeWhile` over the id stops exactly at the closing bracket. -/
lemma takeWhile_id_append (id s : List Char) (h : ∀ c ∈ id, c ≠ ']') :
    (id ++ ']' :: s).takeWhile (fun c => decide (c ≠ ']')) = id := by
  induction id with
  | nil => simp [List.takeWhile_cons]
  | cons c rest ih =>
    have hc : c ≠ ']' := h c (List.mem_cons_self _ _)
    rw [List.cons_append, List.takeWhile_cons, if_pos (by simp [hc]),
      ih (fun x hx => h x (List.mem_cons_of_mem _ hx))]

/-- The tag matches at the opener itself. -/
lemma tagAt_opener (id s : List Char) (hid : id ≠ [])
    (hnb : ∀ c ∈ id, c ≠ ']') :
    tagAt (openerU ++ (id ++ ']' :: s)) = some (id, s) := by
  have hlen : openerU.length = 17 := by decide
  have hopen : openerAt (openerU ++ (id ++ ']' :: s)) = true := by
    rw [openerAt, decide_eq_true_eq, ← hlen, List.take_left]
    decide
  have hdrop : (openerU ++ (id ++ ']' :: s)).drop 17 = id ++ ']' :: s := by
    rw [← hlen, List.drop_left]
  have htw := takeWhile_id_append id s hnb
  simp only [tagAt, hopen, if_true, hdrop, htw, hid, if_false, List.drop_left]

/-- The leftmost tag of the opener-led text. -/
lemma findTag_opener (id s : List Char) (hid : id ≠ [])
    (hnb : ∀ c ∈ id, c ≠ ']') :
    findTag (openerU ++ (id ++ ']' :: s)) = some ([], id, s) := by
  have hshape : openerU ++ (id ++ ']' :: s) =
      '[' :: (cs "CONVERSATION_ID:" ++ (id ++ ']' :: s)) := rfl
  rw [hshape, findTag, ← hshape, tagAt_opener id s hid hnb]

/-- The normal form of the injected tag. -/
lemma tagOf_eq (id : List Char) :
    tagOf id = '\n' :: '\n' :: (openerU ++ (id ++ ']' :: [])) := by
  simp [tagOf, cs, List.append_assoc]

/-- Finding the tag in text with an injected tag: the opener-free text and
the separator become `before`, the id is the match, nothing follows. -/
lemma findTag_inject (t id : List Char) (hfree : openerFree t = true)
    (hid : id ≠ []) (hnb : ∀ c ∈ id, c ≠ ']') :
    findTag (t ++ tagOf id) = some (t ++ cs "\n\n", id, []) := by
  induction t with
  | nil =>
    rw [List.nil_append, tagOf_eq]
    rw [findTag, tagAt_none_of_openerAt_false _ (openerAt_head_nl _)]
    rw [findTag, tagAt_none_of_openerAt_false _ (openerAt_head_nl _)]
    rw [findTag_opener id [] hid hnb]
    rfl
  | cons c t' ih =>
    have hfree' : openerAt (c :: t') = false ∧ openerFree t' = true := by
      have := hfree
      rw [openerFree, Bool.and_eq_true, Bool.not_eq_true'] at this
      exact this
    have h1 : openerAt ((c :: t') ++ tagOf id) = false := by
      rw [tagOf_eq]
      exact openerAt_append_nl_false _ _ hfree'.1
    have h2 : tagAt (c :: (t' ++ tagOf id)) = none := by
      rw [← List.cons_append]
      exact tagAt_none_of_openerAt_false _ h1
    rw [List.cons_append, findTag, h2, ih hfree'.2]
    rfl

/-- Extraction undoes injection up to the separator: the id comes back and
the cleaned text is the original followed by the two injected newlines. -/
lemma extractFromText_inject (t id : List Char) (hfree : openerFree t = true)
    (hid : id ≠ []) (hnb : ∀ c ∈ id, c ≠ ']') (hstrip : pstrip id = id) :
    extractFromText (t ++ tagOf id) = (some id, t ++ cs "\n\n") := by
  unfold extractFromText
  rw [findTag_inject t id hfree hid hnb]
  simp [hstrip, hid]

set_option maxRecDepth 100000

/-- C1, counterexample.  At `t = "hello"` and `id = "abc"` the round trip
does not return the original text: injection inserts the separator
`"\n\n"` before the tag and extraction removes only the tag itself, so the
cleaned content is `"hello\n\n"`, not `"hello"`. -/
theorem C1_counterexample :
    extract_conversation_id_from_messages
        [⟨cs "user", Content.str (injectText (cs "hello") (cs "abc"))⟩] ≠
      (some (cs "abc"), [⟨cs "user", Content.str (cs "hello")⟩]) ∧
    extract_conversation_id_from_messages
        [⟨cs "user", Content.str (injectText (cs "hello") (cs "abc"))⟩] =
      (some (cs "abc"), [⟨cs "user", Content.str (cs "hello" ++ cs "\n\n")⟩]) := by
  constructor
  · decide
  · decide

/-- C1, amended.  For every text `t` in which the case-insensitive tag
opener `[CONVERSATION_ID:` occurs nowhere and every id that is non-empty,
free of `]` and of leading or trailing whitespace, extracting from a single
user message carrying the injected content yields the id and one user
message whose content is the original text followed by the injected
separator `"\n\n"`. -/
theorem C1_tag_roundtrip_amended (t id : List Char)
    (hfree : openerFree t = true) (hid : id ≠ [])
    (hnb : ∀ c ∈ id, c ≠ ']') (hstrip : pstrip id = id) :
    extract_conversation_id_from_messages
        [⟨cs "user", Content.str (injectText t id)⟩] =
      (some id, [⟨cs "user", Content.str (t ++ cs "\n\n")⟩]) := by
  have hinj : injectText t id = t ++ tagOf id := by
    unfold injectText
    rw [if_neg hid]
  rw [hinj]
  unfold extract_conversation_id_from_messages
  rw [ecGo_none]
  have hx := extractFromText_inject t id hfree hid hnb hstrip
  simp [msgCandidate, msgClean, hx]

/-- C1, witness: the amended round trip at `t = "hi"`, `id = "abc"`. -/
theorem C1_witness :
    extract_conversation_id_from_messages
        [⟨cs "user", Content.str (injectText (cs "hi") (cs "abc"))⟩] =
      (some (cs "abc"), [⟨cs "user", Content.str (cs "hi" ++ cs "\n\n")⟩]) :=
  C1_tag_roundtrip_amended (cs "hi") (cs "abc") (by decide) (by decide)
    (by decide) (by decide)

/-- C2, counterexample.  One message whose single text carries two tags:
the first id is captured, but the second tag is NOT stripped from the
cleaned message — `_extract_from_text` removes only the first match of each
string — so a tag is still extractable from the returned content. -/
theorem C2_counterexample :
    extract_conversation_id_from_messages
        [⟨cs "user", Content.str (cs "[CONVERSATION_ID:aa] x [CONVERSATION_ID:bb]")⟩] =
      (some (cs "aa"),
        [⟨cs "user", Content.str (cs " x [CONVERSATION_ID:bb]")⟩]) ∧
    (extractFromText (cs " x [CONVERSATION_ID:bb]")).1 = some (cs "bb") := by
  constructor
  · decide
  · decide

/-- C2, amended.  Extraction decomposes: the captured id is that of the
first message yielding one — for plain text the first tag of the string,
for multi-part content the LAST tag-bearing text part of that message — so
later messages never override it; and cleaning is independent of capture,
removing exactly the first tag of each text string (later tags within the
same string are preserved). -/
theorem C2_first_capture_decomposition (msgs : List Message) :
    extract_conversation_id_from_messages msgs =
      (List.findSome? msgCandidate msgs, msgs.map msgClean) := by
  unfold extract_conversation_id_from_messages
  rw [ecGo_none]
  rfl

/-- C3, counterexample.  A request supplying an explicit conversation id:
the tag in the message text is forwarded to the upstream provider
unstripped, and still extractable. -/
theorem C3_counterexample :
    forwardedMessages (some (cs "x"))
        [⟨cs "user", Content.str (cs "[CONVERSATION_ID:y] hi")⟩] =
      [⟨cs "user", Content.str (cs "[CONVERSATION_ID:y] hi")⟩] ∧
    (extractFromText (cs "[CONVERSATION_ID:y] hi")).1 = some (cs "y") := by
  constructor
  · decide
  · decide

/-- C3, amended.  Tags are stripped from the forwarded messages only when
the request supplies no truthy explicit conversation id (and the message
list is non-empty), and then only the first occurrence per text string is
removed; with a truthy explicit conversation id the messages are forwarded
unmodified. -/
theorem C3_forwarding (explicitCid : Option (List Char))
    (msgs : List Message) :
    (cidTruthy explicitCid = true → forwardedMessages explicitCid msgs = msgs) ∧
    (cidTruthy explicitCid = false →
      forwardedMessages explicitCid msgs = msgs.map msgClean) := by
  constructor
  · intro h
    unfold forwardedMessages
    rw [if_neg]
    simp [h]
  · intro h
    unfold forwardedMessages
    by_cases hm : msgs = []
    · subst hm
      simp
    · rw [if_pos ⟨h, hm⟩]
      unfold extract_conversation_id_from_messages
      rw [ecGo_none]
      rfl

/-- C3, witness: both branches of the amended claim at concrete inputs. -/
theorem C3_witness :
    forwardedMessages (some (cs "x"))
        [⟨cs "user", Content.str (cs "[CONVERSATION_ID:y] hi")⟩] =
      [⟨cs "user", Content.str (cs "[CONVERSATION_ID:y] hi")⟩] ∧
    forwardedMessages none
        [⟨cs "user", Content.str (cs "[CONVERSATION_ID:y] hi")⟩] =
      [⟨cs "user", Content.str (cs "[CONVERSATION_ID:y] hi")⟩].map msgClean := by
  exact ⟨(C3_forwarding (some (cs "x")) _).1 (by decide),
    (C3_forwarding none _).2 (by decide)⟩

/-- C4, evaluation of the code at the claim's inputs.  The first pair
matches as claimed, but the second pair ALSO matches at the default
threshold `0.7`: the normalized forms `agenta` and `agentz` share the
five-character block `agent`, so the sequence-matcher ratio is
`2·5/12 = 5/6 ≈ 0.83 ≥ 0.7` — the function's own docstring (which asserts
`0.67` and `False` for this pair) disagrees with its computation. -/
theorem C4_code_behavior :
    is_agent_name_match (cs "Nano Banana Pro🔥") (cs "nano banana pro")
        thresholdQ = true ∧
    is_agent_name_match (cs "Agent A") (cs "Agent Z") thresholdQ = true ∧
    get_agent_name_similarity (cs "Agent A") (cs "Agent Z") = mkRat 5 6 := by
  refine ⟨by decide, by decide, by decide⟩

/-- C5, counterexample.  `similarity("!","!") = 0 ≠ 1` — `"!"` is non-empty
but normalizes to the empty string; and the similarity is not symmetric:
the underlying sequence-matcher ratio is order-dependent, e.g.
`similarity("aba","babba") = 3/4` while `similarity("babba","aba") = 1/2`. -/
theorem C5_counterexample :
    get_agent_name_similarity (cs "!") (cs "!") ≠ 1 ∧
    get_agent_name_similarity (cs "aba") (cs "babba") ≠
      get_agent_name_similarity (cs "babba") (cs "aba") := by
  refine ⟨by decide, by decide⟩

/-- C5, amended.  Self-similarity is `1.0` for every name whose NORMALIZED
form is non-empty (a non-empty name of punctuation only scores `0`), and
similarity is symmetric whenever the two normalized forms are equal or
either is empty; full symmetry fails because the base ratio is
order-dependent. -/
theorem C5_similarity_amended (a b : List Char) :
    (normalize_agent_name a ≠ [] → get_agent_name_similarity a a = 1) ∧
    (normalize_agent_name a = normalize_agent_name b ∨
        normalize_agent_name a = [] ∨ normalize_agent_name b = [] →
      get_agent_name_similarity a b = get_agent_name_similarity b a) := by
  constructor
  · intro h
    unfold get_agent_name_similarity
    simp [h]
  · intro h
    unfold get_agent_name_similarity
    rcases h with h | h | h
    · by_cases hb : normalize_agent_name b = []
      · simp [h, hb]
      · simp [h, hb]
    · simp [h]
    · simp [h]

/-- C5, witness: the amended statement at `a = "ab"` and at the pair
`("ab!", "AB")`, whose normalized forms agree. -/
theorem C5_witness :
    get_agent_name_similarity (cs "ab") (cs "ab") = 1 ∧
    get_agent_name_similarity (cs "ab!") (cs "AB") =
      get_agent_name_similarity (cs "AB") (cs "ab!") :=
  ⟨(C5_similarity_amended (cs "ab") (cs "ab")).1 (by decide),
   (C5_similarity_amended (cs "ab!") (cs "AB")).2 (Or.inl (by decide))⟩

/-- With no exactly matching nickname anywhere, tier 1 yields nothing. -/
lemma exactMatch_eq_none (items : List GroupItem) (name : List Char)
    (h : ∀ it ∈ items, ∀ u ∈ it.user_list, u.nickname ≠ some name) :
    exactMatch items name = none := by
  unfold exactMatch
  rw [List.findSome?_eq_none_iff]
  intro it hit
  rw [List.findSome?_eq_none_iff]
  intro u hu
  rw [if_neg (h it hit u hu)]

/-- C6.  When no existing nickname matches exactly and the fuzzy scan of
existing groups stays below the threshold, but the catalog scan's best
entry reaches it, the resolver creates a group bound to that entry's
account number and returns the new group's id together with the account
number of the creation response's first member, falling back to the
catalog entry's own account number when the member list is empty. -/
theorem C6_catalog_provisioning (items : List GroupItem)
    (al : List AgentEntry) (create : List (List Char) → Option GroupInfo)
    (name : List Char) (sc : ℚ) (e : AgentEntry) (anb : List Char)
    (info : GroupInfo)
    (h1 : ∀ it ∈ items, ∀ u ∈ it.user_list, u.nickname ≠ some name)
    (h2 : (bestGroupMatch items name).1 < thresholdQ)
    (h3 : bestAgentMatch al name = (sc, some e))
    (h4 : sc ≥ thresholdQ)
    (h5 : e.account_no = some anb) (h6 : anb ≠ [])
    (h7 : create [anb] = some info) :
    (info.user_list = [] →
      get_my_chat_group_list items (some al) create name =
        some (info.id, some anb)) ∧
    (∀ u us m, info.user_list = u :: us → u.account_no = some m → m ≠ [] →
      get_my_chat_group_list items (some al) create name =
        some (info.id, some m)) := by
  have hmain : get_my_chat_group_list items (some al) create name =
      resolveTier3 (some al) create name := by
    unfold get_my_chat_group_list
    rw [exactMatch_eq_none items name h1]
    rcases hbg : bestGroupMatch items name with ⟨sc', opt⟩
    cases opt with
    | none => rfl
    | some p =>
      obtain ⟨it, u⟩ := p
      have hlt : ¬(sc' ≥ thresholdQ) := by
        rw [hbg] at h2
        exact not_le.mpr h2
      simp only [hlt, if_false]
  have htier : resolveTier3 (some al) create name =
      some (info.id, some (match info.user_list with
        | [] => anb
        | u :: _ =>
          match u.account_no with
          | some m => if m = [] then anb else m
          | none => anb)) := by
    simp [resolveTier3, h3, h4, h5, h6, h7]
  constructor
  · intro hempty
    rw [hmain, htier]
    simp [hempty]
  · intro u us m hcons hacc hm
    rw [hmain, htier]
    simp [hcons, hacc, hm]

/-- C6, witness: the `GhostWriter` scenario — no existing groups, one
catalog entry labelled `Ghost Writer Pro` with account number `gw1`, a
creation response whose single member carries `gw1`. -/
theorem C6_witness :
    get_my_chat_group_list []
        (some [⟨none, some (cs "Ghost Writer Pro"), some (cs "gw1"), none⟩])
        (fun _ => some ⟨some (cs "g-new"),
          [⟨some (cs "Ghost Writer Pro"), some (cs "gw1")⟩]⟩)
        (cs "GhostWriter") =
      some (some (cs "g-new"), some (cs "gw1")) :=
  (C6_catalog_provisioning []
      [⟨none, some (cs "Ghost Writer Pro"), some (cs "gw1"), none⟩]
      (fun _ => some ⟨some (cs "g-new"),
        [⟨some (cs "Ghost Writer Pro"), some (cs "gw1")⟩]⟩)
      (cs "GhostWriter")
      (get_agent_name_similarity (cs "GhostWriter") (cs "Ghost Writer Pro"))
      ⟨none, some (cs "Ghost Writer Pro"), some (cs "gw1"), none⟩
      (cs "gw1")
      ⟨some (cs "g-new"), [⟨some (cs "Ghost Writer Pro"), some (cs "gw1")⟩]⟩
      (by intro it hit; cases hit)
      (by decide) (by decide) (by decide) (by decide) (by decide)
      (by decide)).2
    ⟨some (cs "Ghost Writer Pro"), some (cs "gw1")⟩ [] (cs "gw1")
    (by decide) (by decide) (by decide)

/-- An absent key is not found. -/
lemma findSession_eq_none_of_not_mem (st : SessionMap) (cid : List Char)
    (h : cid ∉ st.map Prod.fst) : findSession st cid = none := by
  induction st with
  | nil => rfl
  | cons p rest ih =>
    obtain ⟨k, s⟩ := p
    have hk : k ≠ cid := by
      intro hkc
      exact h (by rw [List.map_cons, hkc]; exact List.mem_cons_self _ _)
    simp only [findSession, if_neg hk]
    exact ih (fun hm => h (List.mem_cons_of_mem _ hm))

/-- Deleting a key removes it, when keys are unique. -/
lemma findSession_erase_self (st : SessionMap) (cid : List Char)
    (h : (st.map Prod.fst).Nodup) :
    findSession (eraseSession st cid) cid = none := by
  induction st with
  | nil => rfl
  | cons p rest ih =>
    obtain ⟨k, s⟩ := p
    rw [List.map_cons, List.nodup_cons] at h
    by_cases hk : k = cid
    · rw [eraseSession, if_pos hk]
      exact findSession_eq_none_of_not_mem rest cid (hk ▸ h.1)
    · rw [eraseSession, if_neg hk, findSession, if_neg hk]
      exact ih h.2

/-- Deleting a key leaves every other key's entry alone. -/
lemma findSession_erase_other (st : SessionMap) (cid k : List Char)
    (h : k ≠ cid) :
    findSession (eraseSession st cid) k = findSession st k := by
  induction st with
  | nil => rfl
  | cons p rest ih =>
    obtain ⟨k', s⟩ := p
    by_cases hk' : k' = cid
    · rw [eraseSession, if_pos hk', findSession,
        if_neg (fun hkk : k' = k => h (hkk ▸ hk'))]
    · rw [eraseSession, if_neg hk']
      by_cases hkk : k' = k
      · rw [findSession, if_pos hkk, findSession, if_pos hkk]
      · rw [findSession, if_neg hkk, findSession, if_neg hkk, ih]

/-- Folding deletions over keys foreign to the head leaves the head. -/
lemma foldl_erase_cons (ks : List (List Char)) : ∀ (m : SessionMap)
    (k : List Char) (s : Session), (∀ k' ∈ ks, k' ≠ k) →
    ks.foldl (fun m k => eraseSession m k) ((k, s) :: m) =
      (k, s) :: ks.foldl (fun m k => eraseSession m k) m := by
  induction ks with
  | nil => intro m k s _; rfl
  | cons k' ks' ih =>
    intro m k s h
    have hk' : k ≠ k' := fun hkk =>
      h k' (List.mem_cons_self _ _) hkk.symm
    simp only [List.foldl_cons, eraseSession, if_neg hk']
    exact ih _ k s (fun x hx => h x (List.mem_cons_of_mem _ hx))

/-- The deletion loop of `cleanup_expired` equals a filter of the fresh
entries, when keys are unique. -/
lemma foldl_erase_stale (now ttl : Int) (st : SessionMap)
    (h : (st.map Prod.fst).Nodup) :
    ((st.filter (staleAt now ttl)).map Prod.fst).foldl
        (fun m k => eraseSession m k) st =
      st.filter (fun p => !staleAt now ttl p) := by
  induction st with
  | nil => rfl
  | cons p rest ih =>
    obtain ⟨k, s⟩ := p
    rw [List.map_cons, List.nodup_cons] at h
    by_cases hs : staleAt now ttl (k, s) = true
    · rw [List.filter_cons_of_pos hs, List.map_cons, List.foldl_cons,
        eraseSession, if_pos rfl, List.filter_cons_of_neg (by simp [hs]),
        ih h.2]
    · have hmem : ∀ k' ∈ (rest.filter (staleAt now ttl)).map Prod.fst,
          k' ≠ k := by
        intro k' hk' hkk
        apply h.1
        rw [← hkk]
        rcases List.mem_map.mp hk' with ⟨q, hq, hq2⟩
        exact List.mem_map.mpr ⟨q, List.mem_of_mem_filter hq, hq2⟩
      rw [List.filter_cons_of_neg hs, List.filter_cons_of_pos (by simp [hs]),
        foldl_erase_cons _ _ _ _ hmem, ih h.2]

/-- C7.  `get` returns `none` on an absent id; on a live entry it returns
the stored session and leaves the table unchanged; on an entry whose age
strictly exceeds the time-to-live it returns `none` and deletes exactly
that entry; `cleanup_expired` deletes exactly the stale entries, leaves the
fresh ones in place, and returns the number deleted. -/
theorem C7_store_expiry (now ttl : Int) (st : SessionMap) (cid : List Char) :
    (findSession st cid = none → storeGet now ttl st cid = (none, st)) ∧
    (∀ s, findSession st cid = some s → ¬(now - s.last_active_at > ttl) →
      storeGet now ttl st cid = (some s, st)) ∧
    (∀ s, findSession st cid = some s → now - s.last_active_at > ttl →
      (storeGet now ttl st cid).1 = none ∧
      ((st.map Prod.fst).Nodup →
        findSession (storeGet now ttl st cid).2 cid = none) ∧
      (∀ k, k ≠ cid →
        findSession (storeGet now ttl st cid).2 k = findSession st k)) ∧
    ((st.map Prod.fst).Nodup →
      (cleanup_expired now ttl st).1 = st.countP (staleAt now ttl) ∧
      (cleanup_expired now ttl st).2 =
        st.filter (fun p => !staleAt now ttl p)) := by
  refine ⟨?_, ?_, ?_, ?_⟩
  · intro h
    simp only [storeGet, h]
  · intro s hs hl
    simp only [storeGet, hs]
    rw [if_neg hl]
  · intro s hs hl
    simp only [storeGet, hs]
    rw [if_pos hl]
    refine ⟨rfl, ?_, ?_⟩
    · intro hnd
      exact findSession_erase_self st cid hnd
    · intro k hk
      exact findSession_erase_other st cid k hk
  · intro hnd
    constructor
    · have hfst : (cleanup_expired now ttl st).1 =
          ((st.filter (staleAt now ttl)).map Prod.fst).length := rfl
      rw [hfst, List.length_map, ← List.countP_eq_length_filter]
    · have hsnd : (cleanup_expired now ttl st).2 =
          ((st.filter (staleAt now ttl)).map Prod.fst).foldl
            (fun m k => eraseSession m k) st := rfl
      rw [hsnd]
      exact foldl_erase_stale now ttl st hnd

/-- C7, witness: a two-entry table at `now = 100`, `ttl = 10`, one entry
stale (last active at `0`), one fresh (last active at `95`). -/
theorem C7_witness :
    (storeGet 100 10 [(cs "a", ⟨cs "a", cs "g", cs "t", cs "m", 0, 0⟩),
        (cs "b", ⟨cs "b", cs "g", cs "t", cs "m", 95, 95⟩)] (cs "a")).1 =
      none ∧
    (cleanup_expired 100 10
        [(cs "a", ⟨cs "a", cs "g", cs "t", cs "m", 0, 0⟩),
         (cs "b", ⟨cs "b", cs "g", cs "t", cs "m", 95, 95⟩)]).1 = 1 := by
  constructor
  · exact ((C7_store_expiry 100 10
      [(cs "a", ⟨cs "a", cs "g", cs "t", cs "m", 0, 0⟩),
       (cs "b", ⟨cs "b", cs "g", cs "t", cs "m", 95, 95⟩)] (cs "a")).2.2.1
      ⟨cs "a", cs "g", cs "t", cs "m", 0, 0⟩ (by decide) (by decide)).1
  · have h := ((C7_store_expiry 100 10
      [(cs "a", ⟨cs "a", cs "g", cs "t", cs "m", 0, 0⟩),
       (cs "b", ⟨cs "b", cs "g", cs "t", cs "m", 95, 95⟩)] (cs "a")).2.2.2
      (by decide)).1
    rw [h]
    decide

/-- Every translated stream is a prefix of stop-free, marker-free items
followed by one stop-closing chunk and one end marker. -/
lemma goStream_shape (convId : Option (List Char)) (lines : List ULine) :
    ∀ media, ∃ pre c, goStream convId lines media = pre ++ [c, OutItem.done] ∧
      isStopChunk c = true ∧
      ∀ x ∈ pre, isStopChunk x = false ∧ isDoneMark x = false := by
  induction lines with
  | nil =>
    intro media
    exact ⟨[], OutItem.chunk none none (some (cs "stop")), rfl, by decide,
      by intro x hx; cases hx⟩
  | cons l rest ih =>
    intro media
    cases l with
    | doneLine =>
      refine ⟨[], OutItem.chunk none
        (if finalSuffix convId media = [] then none
         else some (finalSuffix convId media)) (some (cs "stop")),
        rfl, ?_, by intro x hx; cases hx⟩
      simp [isStopChunk]
    | dataEvent e =>
      cases hm : extractMedia e with
      | some m =>
        obtain ⟨pre, c, heq, hstop, hpre⟩ := ih (some m)
        by_cases hc : eventContent e = []
        · exact ⟨pre, c, by simp [goStream, hm, hc, heq], hstop, hpre⟩
        · refine ⟨OutItem.chunk none (some (eventContent e)) none :: pre, c,
            by simp [goStream, hm, hc, heq], hstop, ?_⟩
          intro x hx
          rcases List.mem_cons.mp hx with h | h
          · subst h; exact ⟨rfl, rfl⟩
          · exact hpre x h
      | none =>
        obtain ⟨pre, c, heq, hstop, hpre⟩ := ih media
        by_cases hc : eventContent e = []
        · exact ⟨pre, c, by simp [goStream, hm, hc, heq], hstop, hpre⟩
        · refine ⟨OutItem.chunk none (some (eventContent e)) none :: pre, c,
            by simp [goStream, hm, hc, heq], hstop, ?_⟩
          intro x hx
          rcases List.mem_cons.mp hx with h | h
          · subst h; exact ⟨rfl, rfl⟩
          · exact hpre x h
    | blank =>
      obtain ⟨pre, c, heq, hstop, hpre⟩ := ih media
      exact ⟨pre, c, by simp [goStream, heq], hstop, hpre⟩
    | otherLine =>
      obtain ⟨pre, c, heq, hstop, hpre⟩ := ih media
      exact ⟨pre, c, by simp [goStream, heq], hstop, hpre⟩
    | dataEmpty =>
      obtain ⟨pre, c, heq, hstop, hpre⟩ := ih media
      exact ⟨pre, c, by simp [goStream, heq], hstop, hpre⟩
    | dataMalformed =>
      obtain ⟨pre, c, heq, hstop, hpre⟩ := ih media
      exact ⟨pre, c, by simp [goStream, heq], hstop, hpre⟩

/-- Without an upstream terminal marker the closing chunk is the
synthesized one with an empty delta. -/
lemma goStream_no_done (convId : Option (List Char)) (lines : List ULine)
    (h : hasDoneLine lines = false) :
    ∀ media, ∃ pre, goStream convId lines media =
      pre ++ [OutItem.chunk none none (some (cs "stop")), OutItem.done] := by
  induction lines with
  | nil => intro media; exact ⟨[], rfl⟩
  | cons l rest ih =>
    intro media
    have hsplit : isDoneLine l = false ∧ hasDoneLine rest = false := by
      rw [hasDoneLine, List.any_cons, Bool.or_eq_false_iff] at h
      exact h
    cases l with
    | doneLine => cases hsplit.1
    | dataEvent e =>
      cases hm : extractMedia e with
      | some m =>
        obtain ⟨pre, heq⟩ := ih hsplit.2 (some m)
        by_cases hc : eventContent e = []
        · exact ⟨pre, by simp [goStream, hm, hc, heq]⟩
        · exact ⟨OutItem.chunk none (some (eventContent e)) none :: pre,
            by simp [goStream, hm, hc, heq]⟩
      | none =>
        obtain ⟨pre, heq⟩ := ih hsplit.2 media
        by_cases hc : eventContent e = []
        · exact ⟨pre, by simp [goStream, hm, hc, heq]⟩
        · exact ⟨OutItem.chunk none (some (eventContent e)) none :: pre,
            by simp [goStream, hm, hc, heq]⟩
    | blank =>
      obtain ⟨pre, heq⟩ := ih hsplit.2 media
      exact ⟨pre, by simp [goStream, heq]⟩
    | otherLine =>
      obtain ⟨pre, heq⟩ := ih hsplit.2 media
      exact ⟨pre, by simp [goStream, heq]⟩
    | dataEmpty =>
      obtain ⟨pre, heq⟩ := ih hsplit.2 media
      exact ⟨pre, by simp [goStream, heq]⟩
    | dataMalformed =>
      obtain ⟨pre, heq⟩ := ih hsplit.2 media
      exact ⟨pre, by simp [goStream, heq]⟩

/-- C8.  The emitted stream always ends with exactly one closing chunk with
finish reason `stop` — the last chunk — followed by exactly one end marker:
no earlier item is a stop chunk or an end marker; and when the upstream
lines carry no terminal marker, the closing chunk is the synthesized one
with an empty delta. -/
theorem C8_stream_always_terminated (convId : Option (List Char))
    (lines : List ULine) :
    (∃ pre c, generate_stream convId lines = pre ++ [c, OutItem.done] ∧
      isStopChunk c = true ∧
      ∀ x ∈ pre, isStopChunk x = false ∧ isDoneMark x = false) ∧
    (hasDoneLine lines = false →
      ∃ pre, generate_stream convId lines =
        pre ++ [OutItem.chunk none none (some (cs "stop")), OutItem.done]) := by
  constructor
  · obtain ⟨pre, c, heq, hstop, hpre⟩ := goStream_shape convId lines none
    refine ⟨OutItem.chunk (some convId) none none :: pre, c,
      by simp [generate_stream, heq], hstop, ?_⟩
    intro x hx
    rcases List.mem_cons.mp hx with h | h
    · subst h; exact ⟨rfl, rfl⟩
    · exact hpre x h
  · intro hnd
    obtain ⟨pre, heq⟩ := goStream_no_done convId lines hnd none
    exact ⟨OutItem.chunk (some convId) none none :: pre,
      by simp [generate_stream, heq]⟩

/-- One aggregation step, written by components. -/
lemma collectStep_eq (acc : CState) (e : UEvent) :
    collectStep acc e =
      ⟨acc.text ++ eventContent e,
       (match extractMedia e with
        | some md => some md
        | none => acc.media),
       acc.res ++ (if (extractMedia e).isSome then choice0Resources e else [])⟩ := by
  unfold collectStep
  cases hm : extractMedia e with
  | some md =>
    by_cases hc : eventContent e = []
    · simp [hm, hc]
    · simp [hm, hc]
  | none =>
    by_cases hc : eventContent e = []
    · simp [hm, hc]
    · simp [hm, hc]

/-- The aggregation loop by components: the text is every processed event's
delta in order, the media the last one observed, the resources those of
media-bearing events. -/
lemma collectLoop_spec (lines : List ULine) : ∀ acc : CState,
    collectLoop lines acc =
      ⟨acc.text ++ allText (processedEvents lines),
       (match lastMedia (processedEvents lines) with
        | some m => some m
        | none => acc.media),
       acc.res ++ allRes (processedEvents lines)⟩ := by
  induction lines with
  | nil =>
    intro acc
    cases acc
    simp [collectLoop, processedEvents, allText, lastMedia, allRes]
  | cons l rest ih =>
    intro acc
    cases l with
    | doneLine =>
      cases acc
      simp [collectLoop, processedEvents, allText, lastMedia, allRes]
    | dataEmpty =>
      cases acc
      simp [collectLoop, processedEvents, allText, lastMedia, allRes]
    | dataEvent e =>
      have hloop : collectLoop (ULine.dataEvent e :: rest) acc =
          collectLoop rest (collectStep acc e) := rfl
      have hP : processedEvents (ULine.dataEvent e :: rest) =
          e :: processedEvents rest := rfl
      rw [hloop, ih, collectStep_eq, hP]
      cases hl : lastMedia (processedEvents rest) with
      | some m =>
        simp [allText, allRes, lastMedia, hl, List.append_assoc]
      | none =>
        cases hm : extractMedia e with
        | some md =>
          simp [allText, allRes, lastMedia, hl, hm, List.append_assoc]
        | none =>
          simp [allText, allRes, lastMedia, hl, hm, List.append_assoc]
    | blank => simpa [collectLoop, processedEvents] using ih acc
    | otherLine => simpa [collectLoop, processedEvents] using ih acc
    | dataMalformed => simpa [collectLoop, processedEvents] using ih acc

/-- No accumulated text means no event produced any. -/
lemma allText_eq_nil (es : List UEvent) :
    allText es = [] ↔ ∀ e ∈ es, eventContent e = [] := by
  induction es with
  | nil => simp [allText]
  | cons e rest ih =>
    simp [allText, List.append_eq_nil, ih]

/-- No last media means no event yielded one. -/
lemma lastMedia_eq_none (es : List UEvent) :
    lastMedia es = none ↔ ∀ e ∈ es, extractMedia e = none := by
  induction es with
  | nil => simp [lastMedia]
  | cons e rest ih =>
    cases hl : lastMedia rest with
    | some m =>
      simp only [lastMedia, hl]
      constructor
      · intro h; cases h
      · intro h
        have := (ih.mpr (fun x hx => h x (List.mem_cons_of_mem _ hx)))
        rw [this] at hl
        cases hl
    | none =>
      simp only [lastMedia, hl]
      constructor
      · intro h x hx
        rcases List.mem_cons.mp hx with hx | hx
        · rw [hx]; exact h
        · exact ih.mp hl x hx
      · intro h
        exact h e (List.mem_cons_self _ _)

/-- Without media nothing is collected into the resource list. -/
lemma allRes_nil_of_no_media (es : List UEvent)
    (h : ∀ e ∈ es, extractMedia e = none) : allRes es = [] := by
  induction es with
  | nil => rfl
  | cons e rest ih =>
    rw [allRes, h e (List.mem_cons_self _ _)]
    simp [ih (fun x hx => h x (List.mem_cons_of_mem _ hx))]

/-- C9.  The aggregation errors out exactly when the processed upstream
events produced neither a text delta nor a media item — and since the
structured resource lists are only collected on a media hit, that is also
exactly the "no text, no media, no structured resources" condition. -/
theorem C9_empty_aggregate_iff (lines : List ULine) :
    isErr (collect_stream_response lines) = true ↔
      ((∀ e ∈ processedEvents lines, eventContent e = []) ∧
       (∀ e ∈ processedEvents lines, extractMedia e = none)) := by
  have hst := collectLoop_spec lines ⟨[], none, []⟩
  have htext : (collectLoop lines ⟨[], none, []⟩).text =
      allText (processedEvents lines) := by rw [hst]; simp
  have hmedia : (collectLoop lines ⟨[], none, []⟩).media =
      lastMedia (processedEvents lines) := by
    rw [hst]
    cases lastMedia (processedEvents lines) <;> rfl
  have hres : (collectLoop lines ⟨[], none, []⟩).res =
      allRes (processedEvents lines) := by rw [hst]; simp
  by_cases hcond : ((collectLoop lines ⟨[], none, []⟩).text = [] ∧
      (collectLoop lines ⟨[], none, []⟩).res = [] ∧
      (collectLoop lines ⟨[], none, []⟩).media = none)
  · simp only [collect_stream_response, if_pos hcond, isErr, true_iff]
    exact ⟨(allText_eq_nil _).mp (htext ▸ hcond.1),
      (lastMedia_eq_none _).mp (hmedia ▸ hcond.2.2)⟩
  · simp only [collect_stream_response, if_neg hcond, isErr,
      Bool.false_eq_true, false_iff]
    intro hcontra
    apply hcond
    refine ⟨htext ▸ (allText_eq_nil _).mpr hcontra.1, ?_,
      hmedia ▸ (lastMedia_eq_none _).mpr hcontra.2⟩
    rw [hres]
    exact allRes_nil_of_no_media _ hcontra.2

/-- C10.  Observing a media item never stops text accumulation: the
aggregated text is the concatenation of every processed event's delta,
independent of media; the tracked media item is the last one observed; and
a successful aggregate renders exactly that last item after the full text. -/
theorem C10_text_independent_of_media (lines : List ULine) :
    (collectLoop lines ⟨[], none, []⟩).text =
      allText (processedEvents lines) ∧
    (collectLoop lines ⟨[], none, []⟩).media =
      lastMedia (processedEvents lines) ∧
    (∀ r, collect_stream_response lines = Except.ok r →
      r.content = allText (processedEvents lines) ++
        collectSuffix (lastMedia (processedEvents lines))) := by
  have hst := collectLoop_spec lines ⟨[], none, []⟩
  have htext : (collectLoop lines ⟨[], none, []⟩).text =
      allText (processedEvents lines) := by rw [hst]; simp
  have hmedia : (collectLoop lines ⟨[], none, []⟩).media =
      lastMedia (processedEvents lines) := by
    rw [hst]
    cases lastMedia (processedEvents lines) <;> rfl
  refine ⟨htext, hmedia, ?_⟩
  intro r hr
  by_cases hcond : ((collectLoop lines ⟨[], none, []⟩).text = [] ∧
      (collectLoop lines ⟨[], none, []⟩).res = [] ∧
      (collectLoop lines ⟨[], none, []⟩).media = none)
  · simp only [collect_stream_response, if_pos hcond] at hr
    cases hr
  · simp only [collect_stream_response, if_neg hcond] at hr
    cases hr
    rw [← htext, ← hmedia]

end Kiira
